import Mathlib

/-!
Verification of the SPI NOR flash engine of this repository: SFDP density
decoding, JEDEC capacity fallback, command/address encoding, busy-wait loops,
status-register unprotect, chunked backup/restore streaming, and the 50 MHz
throughput derivation.  Machine integers are modelled as `Nat` (with explicit
`% 2 ^ w` where overflow matters) and `Int`; double arithmetic in the
benchmark derivation is modelled exactly over `ℚ`.  Hardware responses (SPI
read-back bytes, status registers, the busy bit) are inputs to the model.
-/

/-! ### SFDP density decoding (C1)

Sources: `flash_detect_size` in `src/unnamed/part_004` (first variant,
lines 200-214) and `identify` in `src/unnamed/part_006` (lines 208-217).
-/

/-- Density decode of `flash_detect_size` (`src/unnamed/part_004`, first
variant).  `d` is the 32-bit BFPT DWORD-2 value.  C code:
`if (density_bits & 0x80000000) { size_bits = (density_bits & 0x7FFFFFFF) + 1;`
`size = (size_bits + 7) / 8; } else { size = (density_bits + 1 + 7) / 8; }`.
`d & 0x80000000` is `2 ^ 31 ≤ d` and `d & 0x7FFFFFFF` is `d % 2 ^ 31` for
`d < 2 ^ 32`. -/
def flash_detect_size_density (d : Nat) : Nat :=
  if 2 ^ 31 ≤ d then (d % 2 ^ 31 + 1 + 7) / 8
  else (d + 1 + 7) / 8

/-- Density decode of `identify` (`src/unnamed/part_006`).  C code:
`if ((d2 & 0x80000000u) == 0) { id->density_bits = d2 + 1u; } else {`
`uint32_t n = (d2 & 0x7FFFFFFFu) + 1u; if (n >= 32) id->density_bits = (1u << n); }`.
The result is the `density_bits` field, zero-initialised by `memset`; when the
guard `n >= 32` fails the field keeps that zero.  `1u << n` with `n ≥ 32` is
undefined behaviour in C; it is modelled as `2 ^ n % 2 ^ 32` (the branch is
unreachable for well-defined inputs anyway). -/
def identify_density_bits (d : Nat) : Nat :=
  if d < 2 ^ 31 then d + 1
  else if 32 ≤ d % 2 ^ 31 + 1 then 2 ^ (d % 2 ^ 31 + 1) % 2 ^ 32
  else 0

/-- C1, code bug: the claim's decoding of a 128-Mbit density DWORD fails on
the code for the bit-31 encoding.  Direct encoding `0x07FFFFFF`
(`value + 1 = 2 ^ 27` bits) does decode to 16 MiB in `flash_detect_size`, and
`identify` yields the correct bit count; but the bit-31-set encoding
`0x8000001A` (the claim's `2 ^ ((value & 0x7FFFFFFF) + 1) = 2 ^ 27` bits)
yields 4 bytes in `flash_detect_size` (the field is decoded linearly, not as
an exponent) and leaves `density_bits = 0` in `identify` (the guard
`if (n >= 32)` is inverted, so the `1u << n` assignment runs exactly when the
shift is undefined and never for valid densities). -/
theorem C1_density_bug :
    flash_detect_size_density 0x07FFFFFF = 16777216 ∧
    identify_density_bits 0x07FFFFFF = 134217728 ∧
    flash_detect_size_density 0x8000001A = 4 ∧
    identify_density_bits 0x8000001A = 0 ∧
    (134217728 + 7) / 8 = 16777216 := by
  refine ⟨?_, ?_, ?_, ?_, ?_⟩ <;> decide

/-! ### JEDEC capacity-code fallback (C6)

Sources: `capacity_from_id` and `jedec_probe` in
`src/PicotoFlash/sd_functions.c` (lines 725-729 and 758-781) and the JEDEC
fallback of `flash_detect_size` in `src/unnamed/part_004` (lines 236-261).
-/

/-- Function `capacity_from_id` (`sd_functions.c`):
`if (cap_id >= 32) return 0; return 1u << cap_id;`. -/
def capacity_from_id (cap_id : Nat) : Nat :=
  if 32 ≤ cap_id then 0 else 2 ^ cap_id

/-- Capacity assignment of `jedec_probe` (`sd_functions.c`):
`out->total_bytes = capacity_from_id(out->capacity_id);`
`if (out->total_bytes == 0) out->total_bytes = 512*1024;`. -/
def jedec_probe_total_bytes (cap_id : Nat) : Nat :=
  if capacity_from_id cap_id = 0 then 512 * 1024 else capacity_from_id cap_id

/-- Return value of `jedec_probe` (`sd_functions.c`): the function ends in
`return true;` on every path — it never reports a probe failure. -/
def jedec_probe_ok (_cap_id : Nat) : Bool :=
  true

/-- JEDEC-ID fallback of `flash_detect_size` (`src/unnamed/part_004`):
`if (capacity_code >= 0x10 && capacity_code <= 0x1F) { size = 1UL << capacity_code; return size; } ... return 0;`
(0 is the function's failure value). -/
def flash_detect_size_fallback (capacity_code : Nat) : Nat :=
  if 0x10 ≤ capacity_code ∧ capacity_code ≤ 0x1F then 2 ^ capacity_code else 0

/-- C6, counterexample: for capacity code 0x08 — outside 0x10..0x1F —
`jedec_probe` does not fail: it returns `true` with `total_bytes = 256`,
where the claim demands a hard probe failure. -/
theorem C6_counterexample :
    ¬ (0x10 ≤ 8 ∧ 8 ≤ 0x1F) ∧ jedec_probe_ok 8 = true ∧
      jedec_probe_total_bytes 8 = 256 := by
  decide

/-- C6, amended: `flash_detect_size` (part_004) accepts exactly the codes
0x10..0x1F as `2 ^ code` bytes and fails (returns 0) for every other code;
`jedec_probe` (sd_functions.c) instead accepts every code below 32 as
`2 ^ code` bytes, substitutes a 512 KiB default for codes ≥ 32, and always
returns a profile. -/
theorem C6_amended (code : Nat) :
    (0x10 ≤ code ∧ code ≤ 0x1F → flash_detect_size_fallback code = 2 ^ code) ∧
    (¬ (0x10 ≤ code ∧ code ≤ 0x1F) → flash_detect_size_fallback code = 0) ∧
    (code < 32 → jedec_probe_total_bytes code = 2 ^ code) ∧
    (32 ≤ code → jedec_probe_total_bytes code = 512 * 1024) ∧
    jedec_probe_ok code = true := by
  refine ⟨fun h => ?_, fun h => ?_, fun h => ?_, fun h => ?_, rfl⟩
  · simp [flash_detect_size_fallback, h]
  · simp [flash_detect_size_fallback, h]
  · have hpos : 0 < 2 ^ code := Nat.pos_pow_of_pos code (by decide)
    simp [jedec_probe_total_bytes, capacity_from_id, Nat.not_le.mpr h]
  · simp [jedec_probe_total_bytes, capacity_from_id, h]

/-- C6 amended, witness: code 0x15 is accepted by both fallbacks as
`2 ^ 0x15` bytes, and code 40 gets the 512 KiB default from `jedec_probe`
while `flash_detect_size` fails. -/
theorem C6_amended_witness :
    flash_detect_size_fallback 0x15 = 2 ^ 0x15 ∧
    jedec_probe_total_bytes 0x15 = 2 ^ 0x15 ∧
    flash_detect_size_fallback 40 = 0 ∧
    jedec_probe_total_bytes 40 = 512 * 1024 :=
  ⟨(C6_amended 0x15).1 (by decide), (C6_amended 0x15).2.2.1 (by decide),
   (C6_amended 40).2.1 (by decide), (C6_amended 40).2.2.2.1 (by decide)⟩

/-! ### Command and address encoding (C2)

Sources: `jedec_read_chunk`, `erase_4k`, `prog_page` in
`src/PicotoFlash/sd_functions.c` (lines 784-795 and 817-838) and the
`flash_backup_to_sd` / `flash_smart_erase` / `flash_restore_from_sd_with_size`
command paths in `src/unnamed/part_004`.
-/

/-- Byte extraction `(x >> k) & 0xFF`, written with division and remainder
(`x >> k = x / 2 ^ k` and `y & 0xFF = y % 256` on unsigned integers). -/
def byteAt (x k : Nat) : Nat :=
  x / 2 ^ k % 256

/-- Header built by `jedec_read_chunk` (`sd_functions.c`):
`hdr[h++]=chip->read_cmd; if (chip->use_4byte_addr) hdr[h++]=(addr>>24)&0xFF;`
`hdr[h++]=(addr>>16)&0xFF; hdr[h++]=(addr>>8)&0xFF; hdr[h++]=(addr)&0xFF;`
`if (chip->read_cmd==0x0B) hdr[h++]=0x00;`. -/
def jedec_read_chunk_hdr (use4 : Bool) (read_cmd : Nat) (addr : Nat) : List Nat :=
  [read_cmd] ++ (if use4 then [byteAt addr 24] else []) ++
    [byteAt addr 16, byteAt addr 8, byteAt addr 0] ++
    (if read_cmd = 0x0B then [0] else [])

/-- Header built by `erase_4k` (`sd_functions.c`): opcode 0x20 in both
addressing modes, with a fourth leading address byte iff `use_4byte_addr`. -/
def erase_4k_hdr (use4 : Bool) (addr : Nat) : List Nat :=
  [0x20] ++ (if use4 then [byteAt addr 24] else []) ++
    [byteAt addr 16, byteAt addr 8, byteAt addr 0]

/-- Header built by `prog_page` (`sd_functions.c`): opcode 0x02 in both
addressing modes, with a fourth leading address byte iff `use_4byte_addr`. -/
def prog_page_hdr (use4 : Bool) (addr : Nat) : List Nat :=
  [0x02] ++ (if use4 then [byteAt addr 24] else []) ++
    [byteAt addr 16, byteAt addr 8, byteAt addr 0]

/-- Read command of `flash_backup_to_sd` (`src/unnamed/part_004`):
`CMD_FAST_READ_4B` (0x0C) with four address bytes and a dummy byte when
`use_4byte`, else `CMD_FAST_READ` (0x0B) with three address bytes and a
dummy byte. -/
def flash_backup_read_cmd (use4 : Bool) (addr : Nat) : List Nat :=
  if use4 then [0x0C, byteAt addr 24, byteAt addr 16, byteAt addr 8, byteAt addr 0, 0]
  else [0x0B, byteAt addr 16, byteAt addr 8, byteAt addr 0, 0]

/-- 64K-erase command of `flash_smart_erase` (`src/unnamed/part_004`):
`CMD_BE_64K_4B` (0xDC) with four address bytes when `use_4byte`, else
`CMD_BE_64K` (0xD8) with three. -/
def flash_smart_erase_64k_cmd (use4 : Bool) (addr : Nat) : List Nat :=
  if use4 then [0xDC, byteAt addr 24, byteAt addr 16, byteAt addr 8, byteAt addr 0]
  else [0xD8, byteAt addr 16, byteAt addr 8, byteAt addr 0]

/-- 4K-erase command of `flash_smart_erase` (`src/unnamed/part_004`):
`CMD_SE_4K_4B` (0x21) with four address bytes when `use_4byte`, else
`CMD_SE_4K` (0x20) with three. -/
def flash_smart_erase_4k_cmd (use4 : Bool) (addr : Nat) : List Nat :=
  if use4 then [0x21, byteAt addr 24, byteAt addr 16, byteAt addr 8, byteAt addr 0]
  else [0x20, byteAt addr 16, byteAt addr 8, byteAt addr 0]

/-- Page-program command of `flash_restore_from_sd_with_size`
(`src/unnamed/part_004`): `CMD_PP_4B` (0x12) with four address bytes when
`use_4byte`, else `CMD_PP` (0x02) with three. -/
def flash_restore_pp_cmd (use4 : Bool) (addr : Nat) : List Nat :=
  if use4 then [0x12, byteAt addr 24, byteAt addr 16, byteAt addr 8, byteAt addr 0]
  else [0x02, byteAt addr 16, byteAt addr 8, byteAt addr 0]

/-- Big-endian value of a byte list (most significant byte first). -/
def beDecode (bs : List Nat) : Nat :=
  bs.foldl (fun acc b => acc * 256 + b) 0

/-- Address field of a command header: the `n` bytes following the opcode,
decoded big-endian. -/
def addrField (l : List Nat) (n : Nat) : Nat :=
  beDecode ((l.drop 1).take n)

theorem be3_decode (a : Nat) :
    beDecode [byteAt a 16, byteAt a 8, byteAt a 0] = a % 2 ^ 24 := by
  simp only [beDecode, byteAt, List.foldl]
  omega

theorem be4_decode (a : Nat) :
    beDecode [byteAt a 24, byteAt a 16, byteAt a 8, byteAt a 0] = a % 2 ^ 32 := by
  simp only [beDecode, byteAt, List.foldl]
  omega

/-- C2, counterexample: with `use_4byte_addr = true` the `sd_functions.c`
path does not switch to the 4-byte opcode variants: the fast-read header at
address 0x01020304 starts with 0x0B (not 0x0C), the 4K-erase header with
0x20 (not 0x21), and the page-program header with 0x02 (not 0x12) — each
followed by four address bytes. -/
theorem C2_counterexample :
    jedec_read_chunk_hdr true 0x0B 0x01020304 = [0x0B, 1, 2, 3, 4, 0] ∧
    (jedec_read_chunk_hdr true 0x0B 0x01020304).head? ≠ some 0x0C ∧
    (erase_4k_hdr true 0x01020304).head? ≠ some 0x21 ∧
    (prog_page_hdr true 0x01020304).head? ≠ some 0x12 := by
  refine ⟨?_, ?_, ?_, ?_⟩ <;> decide

theorem addrField3 (op a : Nat) (tail : List Nat) :
    addrField (op :: byteAt a 16 :: byteAt a 8 :: byteAt a 0 :: tail) 3 = a % 2 ^ 24 := by
  simp only [addrField, List.drop, List.take, beDecode, List.foldl, byteAt]
  omega

theorem addrField4 (op a : Nat) (tail : List Nat) :
    addrField (op :: byteAt a 24 :: byteAt a 16 :: byteAt a 8 :: byteAt a 0 :: tail) 4
      = a % 2 ^ 32 := by
  simp only [addrField, List.drop, List.take, beDecode, List.foldl, byteAt]
  omega

/-- C2, amended: for the `flash_*` paths of part_004 the claim holds as
stated — 3-byte mode emits the 3-byte opcode (0x0B / 0x02 / 0x20 / 0xD8)
followed by exactly 3 big-endian address bytes, and 4-byte mode emits the
4-byte variant (0x0C / 0x12 / 0x21 / 0xDC) followed by exactly 4 big-endian
address bytes.  The `jedec_*` path of `sd_functions.c` keeps the base opcode
unchanged in both modes (it relies on the chip's EN4B state), emitting 3
big-endian address bytes when `use_4byte_addr` is false and 4 when it is
true.  "Exactly n big-endian address bytes" is expressed by the header
length and by the n bytes after the opcode decoding big-endian to
`addr % 2 ^ (8 n)`. -/
theorem C2_amended (addr read_cmd : Nat) :
    ((flash_backup_read_cmd false addr).head? = some 0x0B ∧
      (flash_backup_read_cmd false addr).length = 5 ∧
      addrField (flash_backup_read_cmd false addr) 3 = addr % 2 ^ 24) ∧
    ((flash_backup_read_cmd true addr).head? = some 0x0C ∧
      (flash_backup_read_cmd true addr).length = 6 ∧
      addrField (flash_backup_read_cmd true addr) 4 = addr % 2 ^ 32) ∧
    ((flash_restore_pp_cmd false addr).head? = some 0x02 ∧
      (flash_restore_pp_cmd false addr).length = 4 ∧
      addrField (flash_restore_pp_cmd false addr) 3 = addr % 2 ^ 24) ∧
    ((flash_restore_pp_cmd true addr).head? = some 0x12 ∧
      (flash_restore_pp_cmd true addr).length = 5 ∧
      addrField (flash_restore_pp_cmd true addr) 4 = addr % 2 ^ 32) ∧
    ((flash_smart_erase_4k_cmd false addr).head? = some 0x20 ∧
      (flash_smart_erase_4k_cmd false addr).length = 4 ∧
      addrField (flash_smart_erase_4k_cmd false addr) 3 = addr % 2 ^ 24) ∧
    ((flash_smart_erase_4k_cmd true addr).head? = some 0x21 ∧
      (flash_smart_erase_4k_cmd true addr).length = 5 ∧
      addrField (flash_smart_erase_4k_cmd true addr) 4 = addr % 2 ^ 32) ∧
    ((flash_smart_erase_64k_cmd false addr).head? = some 0xD8 ∧
      (flash_smart_erase_64k_cmd false addr).length = 4 ∧
      addrField (flash_smart_erase_64k_cmd false addr) 3 = addr % 2 ^ 24) ∧
    ((flash_smart_erase_64k_cmd true addr).head? = some 0xDC ∧
      (flash_smart_erase_64k_cmd true addr).length = 5 ∧
      addrField (flash_smart_erase_64k_cmd true addr) 4 = addr % 2 ^ 32) ∧
    ((jedec_read_chunk_hdr false read_cmd addr).head? = some read_cmd ∧
      addrField (jedec_read_chunk_hdr false read_cmd addr) 3 = addr % 2 ^ 24) ∧
    ((jedec_read_chunk_hdr true read_cmd addr).head? = some read_cmd ∧
      addrField (jedec_read_chunk_hdr true read_cmd addr) 4 = addr % 2 ^ 32) ∧
    ((erase_4k_hdr false addr).head? = some 0x20 ∧
      (erase_4k_hdr false addr).length = 4 ∧
      addrField (erase_4k_hdr false addr) 3 = addr % 2 ^ 24) ∧
    ((erase_4k_hdr true addr).head? = some 0x20 ∧
      (erase_4k_hdr true addr).length = 5 ∧
      addrField (erase_4k_hdr true addr) 4 = addr % 2 ^ 32) ∧
    ((prog_page_hdr false addr).head? = some 0x02 ∧
      (prog_page_hdr false addr).length = 4 ∧
      addrField (prog_page_hdr false addr) 3 = addr % 2 ^ 24) ∧
    ((prog_page_hdr true addr).head? = some 0x02 ∧
      (prog_page_hdr true addr).length = 5 ∧
      addrField (prog_page_hdr true addr) 4 = addr % 2 ^ 32) := by
  simp only [flash_backup_read_cmd, flash_restore_pp_cmd, flash_smart_erase_4k_cmd,
    flash_smart_erase_64k_cmd, jedec_read_chunk_hdr, erase_4k_hdr, prog_page_hdr,
    if_true, if_false, Bool.false_eq_true, List.cons_append, List.nil_append,
    List.append_assoc]
  refine ⟨⟨rfl, rfl, addrField3 _ _ _⟩, ⟨rfl, rfl, addrField4 _ _ _⟩,
    ⟨rfl, rfl, addrField3 _ _ _⟩, ⟨rfl, rfl, addrField4 _ _ _⟩,
    ⟨rfl, rfl, addrField3 _ _ _⟩, ⟨rfl, rfl, addrField4 _ _ _⟩,
    ⟨rfl, rfl, addrField3 _ _ _⟩, ⟨rfl, rfl, addrField4 _ _ _⟩,
    ⟨rfl, ?_⟩, ⟨rfl, ?_⟩, ⟨rfl, rfl, addrField3 _ _ _⟩, ⟨rfl, rfl, addrField4 _ _ _⟩,
    ⟨rfl, rfl, addrField3 _ _ _⟩, ⟨rfl, rfl, addrField4 _ _ _⟩⟩
  · by_cases h : read_cmd = 0x0B <;>
      simp only [h, if_true, if_false] <;> exact addrField3 _ _ _
  · by_cases h : read_cmd = 0x0B <;>
      simp only [h, if_true, if_false] <;> exact addrField4 _ _ _

/-- C2 amended, witness at address 0x01020304: concrete headers for the
fast-read pair and the jedec read path. -/
theorem C2_amended_witness :
    (flash_backup_read_cmd true 0x01020304).head? = some 0x0C ∧
    addrField (flash_backup_read_cmd true 0x01020304) 4 = 0x01020304 % 2 ^ 32 ∧
    (jedec_read_chunk_hdr true 0x03 0x01020304).head? = some 0x03 ∧
    addrField (jedec_read_chunk_hdr true 0x03 0x01020304) 4 = 0x01020304 % 2 ^ 32 :=
  ⟨(C2_amended 0x01020304 0x03).2.1.1, (C2_amended 0x01020304 0x03).2.1.2.2,
   (C2_amended 0x01020304 0x03).2.2.2.2.2.2.2.2.2.1.1,
   (C2_amended 0x01020304 0x03).2.2.2.2.2.2.2.2.2.1.2⟩

/-! ### Busy-wait loops (C7)

Sources: `wait_busy` in `src/PicotoFlash/sd_functions.c` (lines 697-699),
`wait_busy` in `src/PicotoFlash/univ_restore_sd.c` (lines 30-32), and
`flash_wait_busy` in `src/PicotoFlash/write.c` (lines 45-54).  The device is
modelled by `busy : Nat → Bool`, the WIP bit returned by the i-th RDSR1
poll. -/

/-- Fuel-indexed unfolding of the unbounded loop
`while (rd_status1() & 0x01) { sleep_ms(1); }` shared by
`sd_functions.c` and (with `tight_loop_contents()`) `univ_restore_sd.c`:
`some i` means the loop exited after poll `i` read the busy bit clear;
`none` means it was still looping after `fuel` polls.  The C loop has no
other exit: it terminates iff some poll reads clear. -/
def wait_busy_fuel (busy : Nat → Bool) : Nat → Nat → Option Nat
  | 0, _ => none
  | fuel + 1, i => if busy i then wait_busy_fuel busy fuel (i + 1) else some i

/-- Loop body of `flash_wait_busy` (`write.c`) with the abstract clock
`elapsed(j) = 200 * j` microseconds (one `sleep_us(200)` per iteration):
`while ((flash_rdsr(...) & 0x01) != 0) { if ((time_us_64() - start) > timeout_ms * 1000) return false; sleep_us(200); } return true;`.
The fuel argument only makes the recursion structural; `flash_wait_busy`
below supplies enough fuel that the 0-fuel case is unreachable (an iteration
recurses only while `200 * j ≤ timeout_ms * 1000`). -/
def flash_wait_busy_go (busy : Nat → Bool) (timeout_ms : Nat) : Nat → Nat → Bool
  | 0, _ => false
  | fuel + 1, j =>
    if busy j then
      if timeout_ms * 1000 < 200 * j then false
      else flash_wait_busy_go busy timeout_ms fuel (j + 1)
    else true

/-- Function `flash_wait_busy` (`write.c`): bounded busy poll, `true` when
the busy bit cleared, `false` on timeout. -/
def flash_wait_busy (busy : Nat → Bool) (timeout_ms : Nat) : Bool :=
  flash_wait_busy_go busy timeout_ms (timeout_ms * 5 + 2) 0

theorem wait_busy_fuel_const_true (fuel i : Nat) :
    wait_busy_fuel (fun _ => true) fuel i = none := by
  induction fuel generalizing i with
  | zero => rfl
  | succ fuel ih => simpa [wait_busy_fuel] using ih (i + 1)

theorem wait_busy_fuel_exit (busy : Nat → Bool) (fuel i k : Nat)
    (h : wait_busy_fuel busy fuel i = some k) : busy k = false := by
  induction fuel generalizing i with
  | zero => simp [wait_busy_fuel] at h
  | succ fuel ih =>
    by_cases hb : busy i
    · exact ih (i + 1) (by simpa [wait_busy_fuel, hb] using h)
    · simp only [wait_busy_fuel, hb, if_false] at h
      cases h
      simpa using hb

theorem flash_wait_busy_go_const_true (timeout_ms fuel j : Nat) :
    flash_wait_busy_go (fun _ => true) timeout_ms fuel j = false := by
  induction fuel generalizing j with
  | zero => rfl
  | succ fuel ih =>
    simp only [flash_wait_busy_go, if_true]
    split
    · rfl
    · exact ih (j + 1)

/-- C7, counterexample: against a device whose busy bit never clears, the
`wait_busy` loop of `sd_functions.c` / `univ_restore_sd.c` is still running
after every finite number of polls — there is no bound within which it
terminates, and it can never report a timeout error. -/
theorem C7_counterexample :
    ¬ ∃ fuel, (wait_busy_fuel (fun _ => true) fuel 0).isSome := by
  rintro ⟨fuel, h⟩
  rw [wait_busy_fuel_const_true] at h
  simp at h

/-- C7, amended: only `flash_wait_busy` in `write.c` bounds its busy poll:
against a device whose busy bit never clears it terminates and returns
`false` (a timeout) instead of looping forever.  The `wait_busy` loops in
`sd_functions.c` and `univ_restore_sd.c` have no bound: on such a device
they are still looping after any number of polls, and they exit only when
some poll actually reads the busy bit clear. -/
theorem C7_amended (timeout_ms fuel : Nat) (busy : Nat → Bool) :
    flash_wait_busy (fun _ => true) timeout_ms = false ∧
    wait_busy_fuel (fun _ => true) fuel 0 = none ∧
    ((wait_busy_fuel busy fuel 0).isSome → ∃ i, busy i = false) := by
  refine ⟨flash_wait_busy_go_const_true _ _ _, wait_busy_fuel_const_true _ _, fun h => ?_⟩
  match hm : wait_busy_fuel busy fuel 0 with
  | none => rw [hm] at h; simp at h
  | some k => exact ⟨k, wait_busy_fuel_exit busy fuel 0 k hm⟩

/-- C7 amended, witness: a 5 ms timeout against an always-busy device, fuel
3, and a device that is busy for the first two polls only. -/
theorem C7_amended_witness :
    flash_wait_busy (fun _ => true) 5 = false ∧
    wait_busy_fuel (fun _ => true) 3 0 = none ∧
    ∃ i, (fun n => decide (n < 2)) i = false :=
  ⟨(C7_amended 5 3 (fun n => decide (n < 2))).1,
   (C7_amended 5 3 (fun n => decide (n < 2))).2.1,
   (C7_amended 5 3 (fun n => decide (n < 2))).2.2 (by decide)⟩

/-! ### Status-register unprotect (C8)

Source: `jedec_try_unprotect` in `src/PicotoFlash/sd_functions.c`
(lines 860-915).  The device is modelled by the SR1 value read back after
the WRSR write (`readback_sr1 sr1_new sr2_new`); an accepting device
returns the written value, a silently-rejecting device returns the old
one. -/

/-- Report of `jedec_try_unprotect`.  The C function always attempts the
write (and returns `true` unconditionally); `confirmed_cleared` is its
`bp_cleared` read-back check, `sr1_new` the value it writes, `sr1_after`
the re-read SR1. -/
structure UnprotectReport where
  attempted : Bool
  sr1_new : Nat
  sr1_after : Nat
  confirmed_cleared : Bool
deriving DecidableEq

/-- Function `jedec_try_unprotect` (`sd_functions.c`):
`sr1_new = sr1_before & ~((1u<<2)|(1u<<3)|(1u<<4)|(1u<<5)|(1u<<6)|(1u<<7));`
(i.e. `sr1_before & 0x03` on the uint8 value, written `% 2 ^ 8 % 2 ^ 2`),
`sr2_new = sr2_before;` then WRSR(sr1_new, sr2_new), re-read, and
`bp_cleared = ((sr1_after & ((1u<<2)|(1u<<3)|(1u<<4)|(1u<<5)|(1u<<6))) == 0);`
(`x & 0x7C == 0` is `x % 2 ^ 8 / 2 ^ 2 % 2 ^ 5 = 0`).  The Global Unlock
(0x98), EWSR (0x50) and WREN writes issue no status change in this model;
only the WRSR write is visible through `readback_sr1`. -/
def jedec_try_unprotect (sr1_before sr2_before : Nat)
    (readback_sr1 : Nat → Nat → Nat) : UnprotectReport :=
  { attempted := true
    sr1_new := sr1_before % 2 ^ 8 % 2 ^ 2
    sr1_after := readback_sr1 (sr1_before % 2 ^ 8 % 2 ^ 2) sr2_before
    confirmed_cleared :=
      decide (readback_sr1 (sr1_before % 2 ^ 8 % 2 ^ 2) sr2_before % 2 ^ 8 / 2 ^ 2 % 2 ^ 5 = 0) }

/-- C8: the new SR1 clears bits 2..7 while preserving bits 0 and 1; against
a device that accepts the write the report confirms clearing with SR1 bits
2..7 cleared; against a device that silently rejects the write (its SR1
still reads the old value, which had at least one block-protect bit 2..6
set) the report has `attempted = true` and `confirmed_cleared = false`. -/
theorem C8_try_unprotect (sr1 sr2 : Nat) (accept reject : Nat → Nat → Nat)
    (haccept : ∀ s1 s2, accept s1 s2 = s1)
    (hreject : ∀ s1 s2, reject s1 s2 = sr1 % 2 ^ 8)
    (hbp : sr1 % 2 ^ 8 / 2 ^ 2 % 2 ^ 5 ≠ 0) :
    (∀ i, 2 ≤ i → Nat.testBit (jedec_try_unprotect sr1 sr2 accept).sr1_new i = false) ∧
    (∀ i, i < 2 →
      Nat.testBit (jedec_try_unprotect sr1 sr2 accept).sr1_new i = Nat.testBit sr1 i) ∧
    (jedec_try_unprotect sr1 sr2 accept).attempted = true ∧
    (jedec_try_unprotect sr1 sr2 accept).confirmed_cleared = true ∧
    (∀ i, 2 ≤ i → Nat.testBit (jedec_try_unprotect sr1 sr2 accept).sr1_after i = false) ∧
    (jedec_try_unprotect sr1 sr2 reject).attempted = true ∧
    (jedec_try_unprotect sr1 sr2 reject).confirmed_cleared = false := by
  have hlt : sr1 % 2 ^ 8 % 2 ^ 2 < 2 ^ 2 := Nat.mod_lt _ (by decide)
  refine ⟨fun i hi => ?_, fun i hi => ?_, rfl, ?_, fun i hi => ?_, rfl, ?_⟩
  · simp only [jedec_try_unprotect]
    exact Nat.testBit_eq_false_of_lt (lt_of_lt_of_le hlt (Nat.pow_le_pow_right (by decide) hi))
  · simp only [jedec_try_unprotect, Nat.testBit_mod_two_pow]
    interval_cases i <;> simp
  · simp only [jedec_try_unprotect, haccept, decide_eq_true_eq]
    omega
  · simp only [jedec_try_unprotect, haccept]
    exact Nat.testBit_eq_false_of_lt (lt_of_lt_of_le hlt (Nat.pow_le_pow_right (by decide) hi))
  · simp only [jedec_try_unprotect, hreject, decide_eq_true_eq]
    simpa using hbp

/-- C8, witness: SR1 = 0x9C (BP bits 2..4 and SRP0 set), SR2 = 0x02, an
accepting mock (read-back returns the written value) and a silently
rejecting mock (read-back still returns 0x9C). -/
theorem C8_try_unprotect_witness :
    (∀ i, 2 ≤ i →
      Nat.testBit (jedec_try_unprotect 0x9C 0x02 (fun s1 _ => s1)).sr1_new i = false) ∧
    (∀ i, i < 2 →
      Nat.testBit (jedec_try_unprotect 0x9C 0x02 (fun s1 _ => s1)).sr1_new i
        = Nat.testBit 0x9C i) ∧
    (jedec_try_unprotect 0x9C 0x02 (fun s1 _ => s1)).attempted = true ∧
    (jedec_try_unprotect 0x9C 0x02 (fun s1 _ => s1)).confirmed_cleared = true ∧
    (∀ i, 2 ≤ i →
      Nat.testBit (jedec_try_unprotect 0x9C 0x02 (fun s1 _ => s1)).sr1_after i = false) ∧
    (jedec_try_unprotect 0x9C 0x02 (fun _ _ => 0x9C % 2 ^ 8)).attempted = true ∧
    (jedec_try_unprotect 0x9C 0x02 (fun _ _ => 0x9C % 2 ^ 8)).confirmed_cleared = false :=
  C8_try_unprotect 0x9C 0x02 (fun s1 _ => s1) (fun _ _ => 0x9C % 2 ^ 8)
    (fun _ _ => rfl) (fun _ _ => rfl) (by decide)

/-! ### Restore stream (C3, C4, C10)

Source: `jedec_restore_stream`, `all_ff`, `erase_4k`, `prog_page` in
`src/PicotoFlash/sd_functions.c` (lines 817-1001).  The model records the
erase and page-program commands issued on the bus as a trace of `FlashOp`s;
the chip's read-back bytes at verify time are the input `readback : Nat → Nat`
(the SPI receive is external: corrupting one byte of the mock device's
backing store makes `readback` disagree with the source there).  The source
callback is `src : Nat → Nat → Option (List Nat)`; `none` or a wrong-length
pull is the C code's `!src(...) || got != want` failure. -/

/-- Erase / page-program command issued during restore; `eraseSector base`
is `erase_4k(chip, base)`, `progPage addr data` is
`prog_page(chip, addr, data, data.length)`. -/
inductive FlashOp where
  | eraseSector (base : Nat)
  | progPage (addr : Nat) (data : List Nat)
deriving DecidableEq

/-- Outcome of `jedec_restore_stream`.  The C function only returns `bool`;
the distinct failure returns carry the diagnostics the code prints:
`shortRead` the failing block base, `verifyMismatch` the sector base, the
first mismatching in-sector index `bad`, and the bytes
`buf[bad]` (wrote) / `vbuf[bad]` (read). -/
inductive RestoreResult where
  | ok
  | shortRead (base : Nat)
  | verifyMismatch (base idx wrote readv : Nat)
deriving DecidableEq

/-- Options `jedec_restore_opts_t` (`sd_functions.h` / `sd_functions.c`). -/
structure RestoreOpts where
  verify_after_write : Bool
  skip_erase_when_all_ff : Bool
  skip_prog_when_all_ff : Bool
  program_chunk : Nat
  erase_gran : Nat
deriving DecidableEq

/-- Default options built in `jedec_restore_stream` when `opts_in == NULL`:
all flags true, `program_chunk = page_size ? page_size : 256`,
`erase_gran = sector_size ? sector_size : 4096`. -/
def default_restore_opts (page_size sector_size : Nat) : RestoreOpts :=
  { verify_after_write := true
    skip_erase_when_all_ff := true
    skip_prog_when_all_ff := true
    program_chunk := if page_size = 0 then 256 else page_size
    erase_gran := if sector_size = 0 then 4096 else sector_size }

/-- Function `all_ff` (`sd_functions.c`):
`for (i=0;i<n;i++) if (p[i]!=0xFF) return false; return true;`. -/
def all_ff (l : List Nat) : Bool :=
  l.all (fun b => b == 255)

/-- First mismatching index of two buffers
(`bad=0; while (bad < want && buf[bad]==vbuf[bad]) bad++;`). -/
def first_diff : List Nat → List Nat → Nat
  | a :: as, b :: bs => if a = b then first_diff as bs + 1 else 0
  | _, _ => 0

/-- Page-program loop of one block in `jedec_restore_stream`:
`for (off = 0; off < want; ) { page_addr = base + off;`
`page_off = page_addr & (opts.program_chunk - 1);`
`this_left = opts.program_chunk - page_off; remain = want - off;`
`n = (this_left < remain) ? this_left : remain;`
`if (!(opts.skip_prog_when_all_ff && all_ff(&buf[off], n)))`
`prog_page(chip, page_addr, &buf[off], n); off += n; }`
with `want = buf.length`.  The `0 < pc` guard only rules out the
division-free C expression `0 - page_off` underflowing; the defaults give
`pc = 256`. -/
def prog_pages (skipProg : Bool) (pc base : Nat) (buf : List Nat) (off : Nat) :
    List FlashOp :=
  if _h : off < buf.length ∧ 0 < pc then
    let page_addr := base + off
    let page_off := page_addr &&& (pc - 1)
    let this_left := pc - page_off
    let remain := buf.length - off
    let n := min this_left remain
    let chunk := (buf.drop off).take n
    if skipProg && all_ff chunk then prog_pages skipProg pc base buf (off + n)
    else FlashOp.progPage page_addr chunk :: prog_pages skipProg pc base buf (off + n)
  else []
termination_by buf.length - off
decreasing_by
  all_goals
    unfold_let n this_left remain page_off page_addr
    have hle : (base + off) &&& (pc - 1) ≤ pc - 1 := Nat.and_le_right
    omega

/-- Block loop of `jedec_restore_stream` (`sd_functions.c`, lines 950-997),
from block base `base` to `theEnd = offset + len`.  Per block: pull `want`
bytes (short pull fails), skip the block when
`opts.skip_erase_when_all_ff && all_ff(buf, want)`, otherwise erase, program
page-by-page, and — when `opts.verify_after_write` — re-read the block and
fail on the first mismatch.  The `0 < opts.erase_gran` guard makes the
function total; with `erase_gran = 0` the C loop would not advance (the
defaults give 4096). -/
def restore_go (opts : RestoreOpts) (src : Nat → Nat → Option (List Nat))
    (readback : Nat → Nat) (theEnd : Nat) (base : Nat) :
    List FlashOp × RestoreResult :=
  if _h : base < theEnd ∧ 0 < opts.erase_gran then
    let want := min opts.erase_gran (theEnd - base)
    match src base want with
    | none => ([], .shortRead base)
    | some buf =>
      if buf.length ≠ want then ([], .shortRead base)
      else if opts.skip_erase_when_all_ff && all_ff buf then
        restore_go opts src readback theEnd (base + opts.erase_gran)
      else
        let ops := FlashOp.eraseSector base ::
          prog_pages opts.skip_prog_when_all_ff opts.program_chunk base buf 0
        if opts.verify_after_write then
          let vbuf := (List.range want).map (fun i => readback (base + i))
          if buf ≠ vbuf then
            let bad := first_diff buf vbuf
            (ops, .verifyMismatch base bad (buf.getD bad 0) (vbuf.getD bad 0))
          else
            let rest := restore_go opts src readback theEnd (base + opts.erase_gran)
            (ops ++ rest.1, rest.2)
        else
          let rest := restore_go opts src readback theEnd (base + opts.erase_gran)
          (ops ++ rest.1, rest.2)
  else ([], .ok)
termination_by theEnd - base
decreasing_by all_goals omega

/-- Function `jedec_restore_stream` restoring `[offset, offset+len)`
(the preliminary `jedec_try_unprotect` call issues only status-register
traffic, not erase/program commands, so it does not appear in the trace). -/
def jedec_restore_stream (opts : RestoreOpts) (src : Nat → Nat → Option (List Nat))
    (readback : Nat → Nat) (offset len : Nat) : List FlashOp × RestoreResult :=
  restore_go opts src readback (offset + len) offset

/-- Source callback that always delivers the requested bytes, reading the
image `data` at absolute addresses (the successful-`fread` case). -/
def srcOfData (data : Nat → Nat) (base want : Nat) : Option (List Nat) :=
  some ((List.range want).map (fun i => data (base + i)))

/-- Lowest address a command touches (an erase command carries its issued
sector address, a page program its start address). -/
def op_lo : FlashOp → Nat
  | .eraseSector b => b
  | .progPage a _ => a

/-- One past the highest address of the issued command's payload. -/
def op_hi : FlashOp → Nat
  | .eraseSector b => b + 1
  | .progPage a d => a + d.length

/-- Every page-program command emitted by the page loop writes at least one
byte, starts at or after `base + off`, and ends within the block buffer. -/
theorem prog_pages_mem (sp : Bool) (pc base : Nat) (buf : List Nat) :
    ∀ off op, op ∈ prog_pages sp pc base buf off →
      ∃ a d, op = FlashOp.progPage a d ∧ 1 ≤ d.length ∧
        base + off ≤ a ∧ a + d.length ≤ base + buf.length := by
  have H : ∀ m off, buf.length - off ≤ m → ∀ op, op ∈ prog_pages sp pc base buf off →
      ∃ a d, op = FlashOp.progPage a d ∧ 1 ≤ d.length ∧
        base + off ≤ a ∧ a + d.length ≤ base + buf.length := by
    intro m
    induction m with
    | zero =>
      intro off hoff op hop
      rw [prog_pages, dif_neg (by omega)] at hop
      simp at hop
    | succ m ih =>
      intro off hoff op hop
      by_cases hg : off < buf.length ∧ 0 < pc
      · have hand : (base + off) &&& (pc - 1) ≤ pc - 1 := Nat.and_le_right
        rw [prog_pages] at hop
        simp only [dif_pos hg] at hop
        split at hop
        · obtain ⟨a, d, hop, hd, hlo, hhi⟩ := ih _ (by omega) op hop
          exact ⟨a, d, hop, hd, by omega, hhi⟩
        · rcases List.mem_cons.mp hop with h | h
          · refine ⟨base + off, _, h, ?_, le_refl _, ?_⟩
            · simp only [List.length_take, List.length_drop]
              omega
            · simp only [List.length_take, List.length_drop]
              omega
          · obtain ⟨a, d, hop, hd, hlo, hhi⟩ := ih _ (by omega) op h
            exact ⟨a, d, hop, hd, by omega, hhi⟩
      · rw [prog_pages, dif_neg hg] at hop
        simp at hop
  exact fun off => H (buf.length - off) off (le_refl _)

theorem restore_go_ops_lb (opts : RestoreOpts) (src : Nat → Nat → Option (List Nat))
    (readback : Nat → Nat) (theEnd : Nat) :
    ∀ base op, op ∈ (restore_go opts src readback theEnd base).1 → base ≤ op_lo op := by
  have H : ∀ m base, theEnd - base ≤ m →
      ∀ op, op ∈ (restore_go opts src readback theEnd base).1 → base ≤ op_lo op := by
    intro m
    induction m with
    | zero =>
      intro base hb op hop
      rw [restore_go, dif_neg (by omega)] at hop
      simp at hop
    | succ m ih =>
      intro base hb op hop
      by_cases hg : base < theEnd ∧ 0 < opts.erase_gran
      · rw [restore_go] at hop
        simp only [dif_pos hg] at hop
        split at hop
        · simp at hop
        · split at hop
          · simp at hop
          · split at hop
            · exact le_trans (by omega) (ih _ (by omega) op hop)
            · split at hop
              · split at hop
                · dsimp only at hop
                  rcases List.mem_cons.mp hop with h | h
                  · subst h; simp [op_lo]
                  · obtain ⟨a, d, hop2, hd, hlo, hhi⟩ :=
                      prog_pages_mem _ _ _ _ _ op h
                    subst hop2; simp only [op_lo]; omega
                · dsimp only at hop
                  rcases List.mem_append.mp hop with h | h
                  · rcases List.mem_cons.mp h with h2 | h2
                    · subst h2; simp [op_lo]
                    · obtain ⟨a, d, hop2, hd, hlo, hhi⟩ :=
                        prog_pages_mem _ _ _ _ _ op h2
                      subst hop2; simp only [op_lo]; omega
                  · exact le_trans (by omega) (ih _ (by omega) op h)
              · dsimp only at hop
                rcases List.mem_append.mp hop with h | h
                · rcases List.mem_cons.mp h with h2 | h2
                  · subst h2; simp [op_lo]
                  · obtain ⟨a, d, hop2, hd, hlo, hhi⟩ :=
                      prog_pages_mem _ _ _ _ _ op h2
                    subst hop2; simp only [op_lo]; omega
                · exact le_trans (by omega) (ih _ (by omega) op h)
      · rw [restore_go, dif_neg hg] at hop
        simp at hop
  exact fun base => H (theEnd - base) base (le_refl _)

theorem all_ff_map_iff (f : Nat → Nat) (want : Nat) :
    all_ff ((List.range want).map f) = true ↔ ∀ i < want, f i = 255 := by
  simp [all_ff, List.all_eq_true]

theorem restore_go_avoids_ff (opts : RestoreOpts) (data readback : Nat → Nat)
    (theEnd tb : Nat)
    (hskip : opts.skip_erase_when_all_ff = true)
    (hff : ∀ i < min opts.erase_gran (theEnd - tb), data (tb + i) = 255) :
    ∀ m base, theEnd - base ≤ m → (∃ k, base + k * opts.erase_gran = tb) →
      ∀ op, op ∈ (restore_go opts (srcOfData data) readback theEnd base).1 →
        op_hi op ≤ tb ∨ tb + opts.erase_gran ≤ op_lo op := by
  intro m
  induction m with
  | zero =>
    intro base hb hk op hop
    rw [restore_go, dif_neg (by omega)] at hop
    simp at hop
  | succ m ih =>
    intro base hb hk op hop
    obtain ⟨k, hkeq⟩ := hk
    by_cases hg : base < theEnd ∧ 0 < opts.erase_gran
    · rw [restore_go] at hop
      simp only [dif_pos hg, srcOfData, List.length_map, List.length_range, ne_eq,
        not_true_eq_false, if_false] at hop
      by_cases hbt : base = tb
      · -- the target block itself: it must be skipped
        have hwant : ∀ i < min opts.erase_gran (theEnd - base),
            data (base + i) = 255 := by
          intro i hi
          exact hbt ▸ hff i (by omega)
        have hffbuf : all_ff ((List.range (min opts.erase_gran (theEnd - base))).map
            (fun i => data (base + i))) = true :=
          (all_ff_map_iff _ _).mpr hwant
        rw [hskip, Bool.true_and, if_pos hffbuf] at hop
        right
        have := restore_go_ops_lb opts (srcOfData data) readback theEnd
          (base + opts.erase_gran) op hop
        omega
      · -- a block strictly before tb
        have hk1 : 1 ≤ k := by
          rcases Nat.eq_zero_or_pos k with h0 | h1
          · subst h0; simp at hkeq; exact absurd hkeq hbt
          · exact h1
        have hble : base + opts.erase_gran ≤ tb := by
          have : opts.erase_gran ≤ k * opts.erase_gran :=
            Nat.le_mul_of_pos_left _ hk1
          omega
        have hrec : ∃ k', (base + opts.erase_gran) + k' * opts.erase_gran = tb :=
          ⟨k - 1, by
            have : (k - 1) * opts.erase_gran + opts.erase_gran = k * opts.erase_gran := by
              rw [Nat.sub_one_mul]
              omega
            omega⟩
        -- ops of the current block stay below tb
        have hcur : ∀ a d, op = FlashOp.progPage a d →
            1 ≤ d.length →
            a + d.length ≤ base + min opts.erase_gran (theEnd - base) →
            op_hi op ≤ tb ∨ tb + opts.erase_gran ≤ op_lo op := by
          intro a d hopeq hd hhi
          left
          subst hopeq
          simp only [op_hi]
          omega
        split at hop
        · exact ih _ (by omega) hrec op hop
        · split at hop
          · split at hop
            · dsimp only at hop
              rcases List.mem_cons.mp hop with h | h
              · subst h; left; simp only [op_hi]; omega
              · obtain ⟨a, d, hop2, hd, hlo, hhi⟩ := prog_pages_mem _ _ _ _ _ op h
                refine hcur a d hop2 hd ?_
                simpa [List.length_map, List.length_range] using hhi
            · dsimp only at hop
              rcases List.mem_append.mp hop with h | h
              · rcases List.mem_cons.mp h with h2 | h2
                · subst h2; left; simp only [op_hi]; omega
                · obtain ⟨a, d, hop2, hd, hlo, hhi⟩ := prog_pages_mem _ _ _ _ _ op h2
                  refine hcur a d hop2 hd ?_
                  simpa [List.length_map, List.length_range] using hhi
              · exact ih _ (by omega) hrec op h
          · dsimp only at hop
            rcases List.mem_append.mp hop with h | h
            · rcases List.mem_cons.mp h with h2 | h2
              · subst h2; left; simp only [op_hi]; omega
              · obtain ⟨a, d, hop2, hd, hlo, hhi⟩ := prog_pages_mem _ _ _ _ _ op h2
                refine hcur a d hop2 hd ?_
                simpa [List.length_map, List.length_range] using hhi
            · exact ih _ (by omega) hrec op h
    · rw [restore_go, dif_neg hg] at hop
      simp at hop

theorem restore_go_all_ff_skip (opts : RestoreOpts) (data : Nat → Nat) (theEnd : Nat)
    (hskip : opts.skip_erase_when_all_ff = true) :
    ∀ m base, theEnd - base ≤ m → (∀ a, base ≤ a → a < theEnd → data a = 255) →
      ∀ readback, restore_go opts (srcOfData data) readback theEnd base = ([], .ok) := by
  intro m
  induction m with
  | zero =>
    intro base hb _hff readback
    rw [restore_go, dif_neg (by omega)]
  | succ m ih =>
    intro base hb hff readback
    by_cases hg : base < theEnd ∧ 0 < opts.erase_gran
    · rw [restore_go]
      simp only [dif_pos hg, srcOfData, List.length_map, List.length_range, ne_eq,
        not_true_eq_false, if_false]
      have hffbuf : all_ff ((List.range (min opts.erase_gran (theEnd - base))).map
          (fun i => data (base + i))) = true :=
        (all_ff_map_iff _ _).mpr (fun i hi => hff (base + i) (by omega) (by omega))
      rw [hskip, Bool.true_and, if_pos hffbuf]
      exact ih (base + opts.erase_gran) (by omega)
        (fun a ha1 ha2 => hff a (by omega) ha2) readback
    · rw [restore_go, dif_neg hg]

theorem map_range_getD (f : Nat → Nat) (want i : Nat) (hi : i < want) :
    ((List.range want).map f).getD i 0 = f i := by
  rw [List.getD_eq_getElem _ _ (by simpa using hi)]
  simp

theorem first_diff_eq : ∀ (l1 l2 : List Nat) (i0 : Nat), l1.length = l2.length →
    i0 < l1.length → l1.getD i0 0 ≠ l2.getD i0 0 →
    (∀ j, j < i0 → l1.getD j 0 = l2.getD j 0) →
    first_diff l1 l2 = i0 := by
  intro l1
  induction l1 with
  | nil => intro l2 i0 _ hi0; simp at hi0
  | cons a as ih =>
    intro l2 i0 hlen hi0 hne heq
    cases l2 with
    | nil => simp at hlen
    | cons b bs =>
      cases i0 with
      | zero =>
        simp only [List.getD] at hne
        simp only [first_diff]
        rw [if_neg (by simpa using hne)]
      | succ j =>
        have hab : a = b := by simpa using heq 0 (Nat.succ_pos j)
        simp only [first_diff, if_pos hab]
        have := ih bs j (by simpa using hlen) (by simpa using hi0)
          (by simpa using hne) (fun j2 hj2 => by simpa using heq (j2 + 1) (by omega))
        omega

theorem restore_go_mismatch (opts : RestoreOpts) (data readback : Nat → Nat)
    (theEnd tb x : Nat)
    (hgran : 0 < opts.erase_gran)
    (hver : opts.verify_after_write = true)
    (htb : tb < theEnd)
    (hx1 : tb ≤ x) (hx2 : x < tb + min opts.erase_gran (theEnd - tb))
    (hcorrupt : readback x ≠ data x)
    (hclean : ∀ a, a ≠ x → readback a = data a)
    (hnoskip : opts.skip_erase_when_all_ff = false ∨
      ∃ i, i < min opts.erase_gran (theEnd - tb) ∧ data (tb + i) ≠ 255) :
    ∀ m base, theEnd - base ≤ m → (∃ k, base + k * opts.erase_gran = tb) →
      (restore_go opts (srcOfData data) readback theEnd base).2
          = .verifyMismatch tb (x - tb) (data x) (readback x) ∧
      ∀ op, op ∈ (restore_go opts (srcOfData data) readback theEnd base).1 →
        op_lo op < tb + opts.erase_gran := by
  intro m
  induction m with
  | zero =>
    intro base hb hk
    obtain ⟨k, hkeq⟩ := hk
    omega
  | succ m ih =>
    intro base hb hk
    obtain ⟨k, hkeq⟩ := hk
    have hg : base < theEnd ∧ 0 < opts.erase_gran := by
      constructor
      · omega
      · exact hgran
    rw [restore_go]
    simp only [dif_pos hg, srcOfData, List.length_map, List.length_range, ne_eq,
      not_true_eq_false, if_false]
    rw [if_pos hver]
    by_cases hbt : base = tb
    · -- the corrupted block: not skipped, verify fails at index x - tb
      subst hbt
      have hnoskipb :
          ¬ ((opts.skip_erase_when_all_ff && all_ff ((List.range
              (min opts.erase_gran (theEnd - base))).map (fun i => data (base + i)))) = true) := by
        rcases hnoskip with h | ⟨i, hi, hiff⟩
        · simp [h]
        · intro hcon
          simp only [Bool.and_eq_true] at hcon
          exact hiff ((all_ff_map_iff _ _).mp hcon.2 i hi)
      rw [if_neg hnoskipb]
      have hdiffne :
          ¬ (((List.range (min opts.erase_gran (theEnd - base))).map
              (fun i => data (base + i))) =
            ((List.range (min opts.erase_gran (theEnd - base))).map
              (fun i => readback (base + i)))) := by
        intro hcon
        have h1 := congrArg (fun l => l.getD (x - base) 0) hcon
        simp only at h1
        rw [map_range_getD _ _ _ (by omega), map_range_getD _ _ _ (by omega)] at h1
        have hxb : base + (x - base) = x := by omega
        rw [hxb] at h1
        exact hcorrupt h1.symm
      rw [if_pos hdiffne]
      have hfd : first_diff
          ((List.range (min opts.erase_gran (theEnd - base))).map (fun i => data (base + i)))
          ((List.range (min opts.erase_gran (theEnd - base))).map
            (fun i => readback (base + i))) = x - base := by
        apply first_diff_eq
        · simp
        · simp
          omega
        · rw [map_range_getD _ _ _ (by omega), map_range_getD _ _ _ (by omega)]
          have hxb : base + (x - base) = x := by omega
          rw [hxb]
          exact fun hcon => hcorrupt hcon.symm
        · intro j hj
          rw [map_range_getD _ _ _ (by omega), map_range_getD _ _ _ (by omega)]
          exact (hclean (base + j) (by omega)).symm
      constructor
      · dsimp only
        rw [hfd, map_range_getD _ _ _ (by omega), map_range_getD _ _ _ (by omega)]
        have hxb : base + (x - base) = x := by omega
        rw [hxb]
      · dsimp only
        intro op hop
        rcases List.mem_cons.mp hop with h | h
        · subst h; simp only [op_lo]; omega
        · obtain ⟨a, d, hop2, hd, hlo, hhi⟩ := prog_pages_mem _ _ _ _ _ op h
          subst hop2
          simp only [op_lo]
          simp only [List.length_map, List.length_range] at hhi
          omega
    · -- a block strictly before tb: processed cleanly, recursion continues
      have hk1 : 1 ≤ k := by
        rcases Nat.eq_zero_or_pos k with h0 | h1
        · subst h0; simp at hkeq; exact absurd hkeq hbt
        · exact h1
      have hble : base + opts.erase_gran ≤ tb := by
        have : opts.erase_gran ≤ k * opts.erase_gran := Nat.le_mul_of_pos_left _ hk1
        omega
      have hrec : ∃ k', (base + opts.erase_gran) + k' * opts.erase_gran = tb :=
        ⟨k - 1, by
          have : (k - 1) * opts.erase_gran + opts.erase_gran = k * opts.erase_gran := by
            rw [Nat.sub_one_mul]; omega
          omega⟩
      have ihr := ih (base + opts.erase_gran) (by omega) hrec
      have hbufveq :
          ((List.range (min opts.erase_gran (theEnd - base))).map
              (fun i => data (base + i))) =
            ((List.range (min opts.erase_gran (theEnd - base))).map
              (fun i => readback (base + i))) := by
        apply List.map_congr_left
        intro i hi
        simp only [List.mem_range] at hi
        exact (hclean (base + i) (by omega)).symm
      rw [if_neg (not_not_intro hbufveq)]
      have hcur : ∀ op, op ∈ (FlashOp.eraseSector base ::
          prog_pages opts.skip_prog_when_all_ff opts.program_chunk base
            ((List.range (min opts.erase_gran (theEnd - base))).map
              (fun i => data (base + i))) 0) → op_lo op < tb + opts.erase_gran := by
        intro op hop
        rcases List.mem_cons.mp hop with h | h
        · subst h; simp only [op_lo]; omega
        · obtain ⟨a, d, hop2, hd, hlo, hhi⟩ := prog_pages_mem _ _ _ _ _ op h
          subst hop2
          simp only [op_lo]
          simp only [List.length_map, List.length_range] at hhi
          omega
      split
      · -- skipped block
        exact ihr
      · -- processed cleanly
        dsimp only
        refine ⟨ihr.1, fun op hop => ?_⟩
        rcases List.mem_append.mp hop with h | h
        · exact hcur op h
        · exact ihr.2 op h

/-- C4: with `skip_erase_when_all_ff` enabled, an erase-granularity block
whose pulled source bytes are all 0xFF is left untouched by
`jedec_restore_stream`: no erase command is issued at an address of that
block and no page-program command writes any byte of it — every command in
the issued trace lies entirely below the block or entirely above it. -/
theorem C4_skip_all_ff_block (opts : RestoreOpts) (data readback : Nat → Nat)
    (offset len tb k : Nat)
    (hskip : opts.skip_erase_when_all_ff = true)
    (htb : offset + k * opts.erase_gran = tb)
    (hff : ∀ i, i < min opts.erase_gran (offset + len - tb) → data (tb + i) = 255) :
    ∀ op, op ∈ (jedec_restore_stream opts (srcOfData data) readback offset len).1 →
      op_hi op ≤ tb ∨ tb + opts.erase_gran ≤ op_lo op :=
  restore_go_avoids_ff opts data readback (offset + len) tb hskip hff
    (offset + len - offset) offset (le_refl _) ⟨k, htb⟩

/-- C4, witness: granularity 4, range `[0, 8)`, block 0 all-0xFF in the
source while block 1 is zeros — every issued command avoids `[0, 4)`. -/
theorem C4_skip_all_ff_block_witness :
    op_lo (FlashOp.eraseSector 4) = 4 ∧
    ∀ op, op ∈ (jedec_restore_stream ⟨true, true, true, 4, 4⟩
        (srcOfData (fun a => if a < 4 then 255 else 0))
        (fun a => if a < 4 then 255 else 0) 0 8).1 →
      op_hi op ≤ 0 ∨ 0 + 4 ≤ op_lo op :=
  ⟨rfl, C4_skip_all_ff_block ⟨true, true, true, 4, 4⟩
    (fun a => if a < 4 then 255 else 0) (fun a => if a < 4 then 255 else 0)
    0 8 0 0 rfl (by decide) (by decide)⟩

/-- C10: with `skip_erase_when_all_ff` enabled and the whole source range
all 0xFF, `jedec_restore_stream` issues no command, performs no read-back
(the result is the same for every `readback`, so it never depends on the
device's pre-existing contents), and reports overall success — even with
`verify_after_write` enabled. -/
theorem C10_skip_skips_verification (opts : RestoreOpts) (data : Nat → Nat)
    (offset len : Nat)
    (hskip : opts.skip_erase_when_all_ff = true)
    (_hver : opts.verify_after_write = true)
    (hff : ∀ a, offset ≤ a → a < offset + len → data a = 255) :
    ∀ readback : Nat → Nat,
      jedec_restore_stream opts (srcOfData data) readback offset len
        = ([], RestoreResult.ok) :=
  restore_go_all_ff_skip opts data (offset + len) hskip
    (offset + len - offset) offset (le_refl _) hff

/-- C10, witness: an all-0xFF 8-byte source restored onto a device that
actually reads back all zeros still succeeds with no commands issued. -/
theorem C10_skip_skips_verification_witness :
    jedec_restore_stream ⟨true, true, true, 4, 4⟩ (srcOfData (fun _ => 255))
        (fun _ => 0) 0 8 = ([], RestoreResult.ok) :=
  C10_skip_skips_verification ⟨true, true, true, 4, 4⟩ (fun _ => 255) 0 8
    rfl rfl (fun _ _ _ => rfl) (fun _ => 0)

/-- C3: with `verify_after_write` enabled, when exactly one byte of a
restored (non-skipped) block reads back different from the source,
`jedec_restore_stream` re-reads the just-written block, compares
byte-for-byte, and aborts the whole restore with a verify-mismatch error
carrying the sector base `tb`, the in-sector index `x - tb` of the
corrupted byte (so `tb + (x - tb) = x`, the corrupted byte's exact
address), the written byte and the read-back byte; no command of any later
block is issued (every op in the trace lies below `tb + erase_gran`) and no
retry happens. -/
theorem C3_verify_mismatch (opts : RestoreOpts) (data readback : Nat → Nat)
    (offset len tb k x : Nat)
    (hgran : 0 < opts.erase_gran)
    (hver : opts.verify_after_write = true)
    (htbeq : offset + k * opts.erase_gran = tb)
    (htb : tb < offset + len)
    (hx1 : tb ≤ x) (hx2 : x < tb + min opts.erase_gran (offset + len - tb))
    (hcorrupt : readback x ≠ data x)
    (hclean : ∀ a, a ≠ x → readback a = data a)
    (hnoskip : opts.skip_erase_when_all_ff = false ∨
      ∃ i, i < min opts.erase_gran (offset + len - tb) ∧ data (tb + i) ≠ 255) :
    (jedec_restore_stream opts (srcOfData data) readback offset len).2
        = RestoreResult.verifyMismatch tb (x - tb) (data x) (readback x) ∧
    tb + (x - tb) = x ∧
    ∀ op, op ∈ (jedec_restore_stream opts (srcOfData data) readback offset len).1 →
      op_lo op < tb + opts.erase_gran := by
  have h := restore_go_mismatch opts data readback (offset + len) tb x hgran hver
    htb hx1 hx2 hcorrupt hclean hnoskip (offset + len - offset) offset (le_refl _)
    ⟨k, htbeq⟩
  exact ⟨h.1, by omega, h.2⟩

/-- C3, witness: granularity 4, range `[0, 8)`, source block 1 is zeros,
the device read-back is corrupted at address 5 only (reads 7): the restore
aborts with a mismatch at sector 4, index 1 — address 4 + 1 = 5 — wrote 0,
read 7, and issues no command at or beyond address 8. -/
theorem C3_verify_mismatch_witness :
    (jedec_restore_stream ⟨true, true, true, 4, 4⟩
        (srcOfData (fun a => if a < 4 then 255 else 0))
        (fun a => if a = 5 then 7 else if a < 4 then 255 else 0) 0 8).2
      = RestoreResult.verifyMismatch 4 1 0 7 ∧
    4 + 1 = 5 ∧
    ∀ op, op ∈ (jedec_restore_stream ⟨true, true, true, 4, 4⟩
        (srcOfData (fun a => if a < 4 then 255 else 0))
        (fun a => if a = 5 then 7 else if a < 4 then 255 else 0) 0 8).1 →
      op_lo op < 8 := by
  have h := C3_verify_mismatch ⟨true, true, true, 4, 4⟩
    (fun a => if a < 4 then 255 else 0)
    (fun a => if a = 5 then 7 else if a < 4 then 255 else 0)
    0 8 4 1 5 (by decide) rfl (by decide) (by decide) (by decide) (by decide)
    (by decide) (fun a ha => if_neg ha) (Or.inr ⟨0, by decide, by decide⟩)
  exact ⟨h.1, h.2.1, h.2.2⟩

/-! ### Backup stream (C5)

Source: `jedec_backup_stream` and `jedec_read_chunk` in
`src/PicotoFlash/sd_functions.c` (lines 784-810).  The device bytes
delivered by the bus are the input `dev : Nat → Nat`; the sink callback is
`sink data len chunk_offset`. -/

/-- Chunk of device bytes delivered by `jedec_read_chunk` into the reused
buffer: `len` bytes starting at address `a`. -/
def chunk_data (dev : Nat → Nat) (a n : Nat) : List Nat :=
  (List.range n).map (fun i => dev (a + i))

/-- Loop of `jedec_backup_stream` (`sd_functions.c`, lines 797-810):
`for (a = offset; a < end; ) { n = chunk; if (a+n > end) n = end-a;`
`if (!jedec_read_chunk(...)) { return false; } if (!sink(buf,n,a,user)) { return false; }`
`a += n; }` — the read never fails (`jedec_read_chunk` ends in
`return true`), so the only abort is the sink returning false.  The result
records the `(offset, length)` of every sink invocation in order, and the
function's boolean return. -/
def backup_go (dev : Nat → Nat) (sink : List Nat → Nat → Nat → Bool)
    (chunk theEnd a : Nat) : List (Nat × Nat) × Bool :=
  if _h : a < theEnd ∧ 0 < chunk then
    if sink (chunk_data dev a (min chunk (theEnd - a))) (min chunk (theEnd - a)) a then
      ((a, min chunk (theEnd - a)) ::
          (backup_go dev sink chunk theEnd (a + min chunk (theEnd - a))).1,
        (backup_go dev sink chunk theEnd (a + min chunk (theEnd - a))).2)
    else ([(a, min chunk (theEnd - a))], false)
  else ([], true)
termination_by theEnd - a
decreasing_by all_goals omega

/-- Function `jedec_backup_stream` over `[offset, offset+len)`:
`if (!sink || chunk==0) return false;` then the chunk loop. -/
def jedec_backup_stream (dev : Nat → Nat) (sink : List Nat → Nat → Nat → Bool)
    (offset len chunk : Nat) : List (Nat × Nat) × Bool :=
  if chunk = 0 then ([], false)
  else backup_go dev sink chunk (offset + len) offset

theorem backup_go_stop (dev : Nat → Nat) (sink : List Nat → Nat → Nat → Bool)
    (chunk theEnd a : Nat) (h : ¬ (a < theEnd ∧ 0 < chunk)) :
    backup_go dev sink chunk theEnd a = ([], true) := by
  rw [backup_go, dif_neg h]

theorem backup_go_calls (dev : Nat → Nat) (sink : List Nat → Nat → Nat → Bool)
    (chunk theEnd : Nat) :
    ∀ m a, theEnd - a ≤ m → 0 < chunk →
      ∀ j, j < (backup_go dev sink chunk theEnd a).1.length →
        (backup_go dev sink chunk theEnd a).1.getD j (0, 0)
            = (a + j * chunk, min chunk (theEnd - (a + j * chunk)))
          ∧ a + j * chunk < theEnd := by
  intro m
  induction m with
  | zero =>
    intro a ha hc j hj
    rw [backup_go_stop _ _ _ _ _ (by omega)] at hj
    simp at hj
  | succ m ih =>
    intro a ha hc j hj
    by_cases hg : a < theEnd ∧ 0 < chunk
    · rw [backup_go] at hj ⊢
      simp only [dif_pos hg] at hj ⊢
      by_cases hs : sink (chunk_data dev a (min chunk (theEnd - a)))
          (min chunk (theEnd - a)) a
      · rw [if_pos hs] at hj ⊢
        cases j with
        | zero =>
          refine ⟨?_, by omega⟩
          simp only [List.getD_cons_zero]
          have h0 : a + 0 * chunk = a := by omega
          rw [h0]
        | succ j =>
          simp only [List.length_cons, Nat.succ_lt_succ_iff] at hj
          have hlt : a + min chunk (theEnd - a) < theEnd := by
            by_contra hcon
            rw [backup_go_stop _ _ _ _ _ (by omega)] at hj
            simp at hj
          have hnc : min chunk (theEnd - a) = chunk := by omega
          have heq : a + min chunk (theEnd - a) + j * chunk = a + (j + 1) * chunk := by
            rw [Nat.add_mul, Nat.one_mul]
            omega
          have := ih (a + min chunk (theEnd - a)) (by omega) hc j hj
          rw [heq] at this
          simpa only [List.getD_cons_succ] using this
      · rw [if_neg hs] at hj ⊢
        simp only [List.length_singleton] at hj
        have hj0 : j = 0 := by omega
        subst hj0
        refine ⟨?_, by omega⟩
        simp only [List.getD_cons_zero]
        have h0 : a + 0 * chunk = a := by omega
        rw [h0]
    · rw [backup_go_stop _ _ _ _ _ hg] at hj
      simp at hj

theorem backup_go_sum (dev : Nat → Nat) (sink : List Nat → Nat → Nat → Bool)
    (chunk theEnd : Nat) :
    ∀ m a, theEnd - a ≤ m → 0 < chunk →
      (backup_go dev sink chunk theEnd a).2 = true →
      ((backup_go dev sink chunk theEnd a).1.map Prod.snd).sum = theEnd - a := by
  intro m
  induction m with
  | zero =>
    intro a ha hc _hres
    rw [backup_go_stop _ _ _ _ _ (by omega)]
    simp
    omega
  | succ m ih =>
    intro a ha hc hres
    by_cases hg : a < theEnd ∧ 0 < chunk
    · rw [backup_go] at hres ⊢
      simp only [dif_pos hg] at hres ⊢
      by_cases hs : sink (chunk_data dev a (min chunk (theEnd - a)))
          (min chunk (theEnd - a)) a
      · rw [if_pos hs] at hres ⊢
        simp only [List.map_cons, List.sum_cons]
        rw [ih (a + min chunk (theEnd - a)) (by omega) hc hres]
        omega
      · rw [if_neg hs] at hres
        simp at hres
    · rw [backup_go_stop _ _ _ _ _ hg]
      simp
      omega

theorem backup_go_sink_true (dev : Nat → Nat) (sink : List Nat → Nat → Nat → Bool)
    (chunk theEnd : Nat) :
    ∀ m a, theEnd - a ≤ m → 0 < chunk →
      ∀ j, j < (backup_go dev sink chunk theEnd a).1.length →
        (j + 1 < (backup_go dev sink chunk theEnd a).1.length ∨
          (backup_go dev sink chunk theEnd a).2 = true) →
        sink (chunk_data dev (a + j * chunk) (min chunk (theEnd - (a + j * chunk))))
          (min chunk (theEnd - (a + j * chunk))) (a + j * chunk) = true := by
  intro m
  induction m with
  | zero =>
    intro a ha hc j hj _hcond
    rw [backup_go_stop _ _ _ _ _ (by omega)] at hj
    simp at hj
  | succ m ih =>
    intro a ha hc j hj hcond
    by_cases hg : a < theEnd ∧ 0 < chunk
    · rw [backup_go] at hj hcond
      simp only [dif_pos hg] at hj hcond
      by_cases hs : sink (chunk_data dev a (min chunk (theEnd - a)))
          (min chunk (theEnd - a)) a
      · rw [if_pos hs] at hj hcond
        cases j with
        | zero =>
          have h0 : a + 0 * chunk = a := by omega
          rw [h0]
          exact hs
        | succ j =>
          simp only [List.length_cons, Nat.succ_lt_succ_iff] at hj hcond
          have hlt : a + min chunk (theEnd - a) < theEnd := by
            by_contra hcon
            rw [backup_go_stop _ _ _ _ _ (by omega)] at hj
            simp at hj
          have hnc : min chunk (theEnd - a) = chunk := by omega
          have heq : a + min chunk (theEnd - a) + j * chunk = a + (j + 1) * chunk := by
            rw [Nat.add_mul, Nat.one_mul]
            omega
          have := ih (a + min chunk (theEnd - a)) (by omega) hc j hj
            (by
              rcases hcond with h | h
              · exact Or.inl h
              · exact Or.inr h)
          rw [heq] at this
          exact this
      · rw [if_neg hs] at hj hcond
        simp only [List.length_singleton] at hj hcond
        have hj0 : j = 0 := by omega
        subst hj0
        rcases hcond with h | h
        · omega
        · simp at h
    · rw [backup_go_stop _ _ _ _ _ hg] at hj
      simp at hj

theorem backup_go_last_false (dev : Nat → Nat) (sink : List Nat → Nat → Nat → Bool)
    (chunk theEnd : Nat) :
    ∀ m a, theEnd - a ≤ m → 0 < chunk →
      (backup_go dev sink chunk theEnd a).2 = false →
      1 ≤ (backup_go dev sink chunk theEnd a).1.length ∧
      sink (chunk_data dev (a + ((backup_go dev sink chunk theEnd a).1.length - 1) * chunk)
          (min chunk (theEnd - (a + ((backup_go dev sink chunk theEnd a).1.length - 1) * chunk))))
        (min chunk (theEnd - (a + ((backup_go dev sink chunk theEnd a).1.length - 1) * chunk)))
        (a + ((backup_go dev sink chunk theEnd a).1.length - 1) * chunk) = false := by
  intro m
  induction m with
  | zero =>
    intro a ha hc hres
    rw [backup_go_stop _ _ _ _ _ (by omega)] at hres
    simp at hres
  | succ m ih =>
    intro a ha hc hres
    by_cases hg : a < theEnd ∧ 0 < chunk
    · rw [backup_go] at hres ⊢
      simp only [dif_pos hg] at hres ⊢
      by_cases hs : sink (chunk_data dev a (min chunk (theEnd - a)))
          (min chunk (theEnd - a)) a
      · rw [if_pos hs] at hres ⊢
        obtain ⟨hlen, hlast⟩ := ih (a + min chunk (theEnd - a)) (by omega) hc hres
        have hne : (backup_go dev sink chunk theEnd (a + min chunk (theEnd - a))).1 ≠ [] := by
          intro hcon
          rw [hcon] at hlen
          simp at hlen
        have hlt : a + min chunk (theEnd - a) < theEnd := by
          by_contra hcon
          rw [backup_go_stop _ _ _ _ _ (by omega)] at hlen
          simp at hlen
        have hnc : min chunk (theEnd - a) = chunk := by omega
        constructor
        · simp
        · simp only [List.length_cons]
          obtain ⟨L, hL⟩ : ∃ L, (backup_go dev sink chunk theEnd
              (a + min chunk (theEnd - a))).1.length = L + 1 :=
            ⟨(backup_go dev sink chunk theEnd (a + min chunk (theEnd - a))).1.length - 1,
              by omega⟩
          rw [hL] at hlast
          rw [hL]
          simp only [Nat.add_sub_cancel] at hlast ⊢
          have hmul : (L + 1) * chunk = L * chunk + chunk := by
            rw [Nat.add_mul, Nat.one_mul]
          have heq : a + (L + 1) * chunk = a + min chunk (theEnd - a) + L * chunk := by
            omega
          rw [heq]
          exact hlast
      · rw [if_neg hs] at hres ⊢
        constructor
        · simp
        · simp only [List.length_singleton, Nat.sub_self]
          have h0 : a + 0 * chunk = a := by omega
          rw [h0]
          simpa using hs
    · rw [backup_go_stop _ _ _ _ _ hg] at hres
      simp at hres

/-- C5: `jedec_backup_stream` invokes the sink on consecutive chunks in
increasing offset order exactly covering `[offset, offset+len)`: the j-th
invocation is at `offset + j * chunk` with length
`min chunk (end - (offset + j * chunk))` — `chunk` bytes except a possibly
shorter final chunk — and receives the device bytes of that range.  On
success every invocation returned true and the invoked lengths sum to
`len`; when the function fails, the last recorded invocation is the first
sink call that returned false, all earlier ones returned true, and no sink
call happens afterwards (the call list ends there).  A bus read error
cannot occur (`jedec_read_chunk` unconditionally reports success), so the
sink is the only abort source. -/
theorem C5_backup_stream (dev : Nat → Nat) (sink : List Nat → Nat → Nat → Bool)
    (offset len chunk : Nat) (hc : 0 < chunk) :
    (∀ j, j < (jedec_backup_stream dev sink offset len chunk).1.length →
      (jedec_backup_stream dev sink offset len chunk).1.getD j (0, 0)
          = (offset + j * chunk, min chunk (offset + len - (offset + j * chunk)))
        ∧ offset + j * chunk < offset + len) ∧
    ((jedec_backup_stream dev sink offset len chunk).2 = true →
      (((jedec_backup_stream dev sink offset len chunk).1.map Prod.snd).sum = len)) ∧
    (∀ j, j < (jedec_backup_stream dev sink offset len chunk).1.length →
      (j + 1 < (jedec_backup_stream dev sink offset len chunk).1.length ∨
        (jedec_backup_stream dev sink offset len chunk).2 = true) →
      sink (chunk_data dev (offset + j * chunk)
          (min chunk (offset + len - (offset + j * chunk))))
        (min chunk (offset + len - (offset + j * chunk))) (offset + j * chunk) = true) ∧
    ((jedec_backup_stream dev sink offset len chunk).2 = false →
      1 ≤ (jedec_backup_stream dev sink offset len chunk).1.length ∧
      sink (chunk_data dev
          (offset + ((jedec_backup_stream dev sink offset len chunk).1.length - 1) * chunk)
          (min chunk (offset + len -
            (offset + ((jedec_backup_stream dev sink offset len chunk).1.length - 1) * chunk))))
        (min chunk (offset + len -
          (offset + ((jedec_backup_stream dev sink offset len chunk).1.length - 1) * chunk)))
        (offset + ((jedec_backup_stream dev sink offset len chunk).1.length - 1) * chunk)
        = false) := by
  have hmodel : jedec_backup_stream dev sink offset len chunk
      = backup_go dev sink chunk (offset + len) offset := by
    rw [jedec_backup_stream, if_neg (by omega)]
  rw [hmodel]
  refine ⟨?_, ?_, ?_, ?_⟩
  · exact backup_go_calls dev sink chunk (offset + len) (offset + len - offset) offset
      (le_refl _) hc
  · intro hres
    have := backup_go_sum dev sink chunk (offset + len) (offset + len - offset) offset
      (le_refl _) hc hres
    omega
  · exact backup_go_sink_true dev sink chunk (offset + len) (offset + len - offset) offset
      (le_refl _) hc
  · exact backup_go_last_false dev sink chunk (offset + len) (offset + len - offset) offset
      (le_refl _) hc

/-- C5, witness: chunk 4 over `[0, 10)` with a sink that accepts only
offsets below 4 — the calls are (0,4) then (4,4), the second is refused and
the stream aborts with failure. -/
theorem C5_backup_stream_witness :
    (∀ j, j < (jedec_backup_stream (fun a => a % 256) (fun _ _ a => decide (a < 4))
        0 10 4).1.length →
      (jedec_backup_stream (fun a => a % 256) (fun _ _ a => decide (a < 4))
          0 10 4).1.getD j (0, 0)
          = (0 + j * 4, min 4 (0 + 10 - (0 + j * 4)))
        ∧ 0 + j * 4 < 0 + 10) ∧
    ((jedec_backup_stream (fun a => a % 256) (fun _ _ a => decide (a < 4)) 0 10 4).2 = true →
      (((jedec_backup_stream (fun a => a % 256) (fun _ _ a => decide (a < 4))
        0 10 4).1.map Prod.snd).sum = 10)) ∧
    (∀ j, j < (jedec_backup_stream (fun a => a % 256) (fun _ _ a => decide (a < 4))
        0 10 4).1.length →
      (j + 1 < (jedec_backup_stream (fun a => a % 256) (fun _ _ a => decide (a < 4))
          0 10 4).1.length ∨
        (jedec_backup_stream (fun a => a % 256) (fun _ _ a => decide (a < 4)) 0 10 4).2 = true) →
      (fun (_ : List Nat) (_ : Nat) (a : Nat) => decide (a < 4))
        (chunk_data (fun a => a % 256) (0 + j * 4) (min 4 (0 + 10 - (0 + j * 4))))
        (min 4 (0 + 10 - (0 + j * 4))) (0 + j * 4) = true) ∧
    ((jedec_backup_stream (fun a => a % 256) (fun _ _ a => decide (a < 4)) 0 10 4).2 = false →
      1 ≤ (jedec_backup_stream (fun a => a % 256) (fun _ _ a => decide (a < 4))
        0 10 4).1.length ∧
      (fun (_ : List Nat) (_ : Nat) (a : Nat) => decide (a < 4))
        (chunk_data (fun a => a % 256)
          (0 + ((jedec_backup_stream (fun a => a % 256) (fun _ _ a => decide (a < 4))
            0 10 4).1.length - 1) * 4)
          (min 4 (0 + 10 -
            (0 + ((jedec_backup_stream (fun a => a % 256) (fun _ _ a => decide (a < 4))
              0 10 4).1.length - 1) * 4))))
        (min 4 (0 + 10 -
          (0 + ((jedec_backup_stream (fun a => a % 256) (fun _ _ a => decide (a < 4))
            0 10 4).1.length - 1) * 4)))
        (0 + ((jedec_backup_stream (fun a => a % 256) (fun _ _ a => decide (a < 4))
          0 10 4).1.length - 1) * 4)
        = false) :=
  C5_backup_stream (fun a => a % 256) (fun _ _ a => decide (a < 4)) 0 10 4 (by decide)

/-! ### Cross-clock throughput derivation (C9)

Source: `find_best_below`, `find_best_above`, `find_closest` and
`read_derive_and_print_50` in `src/PicotoFlash/read.c` (lines 168-201 and
245-265). -/

/-- Loop of `find_best_below` (`read.c`): index of the largest clock
strictly below 50, scanning left to right, starting from
`idx = -1, best = -100000`. -/
def fbb_aux : List Int → Nat → Option Nat → Int → Option Nat
  | [], _, idx, _ => idx
  | a :: r, i, idx, best =>
    if a < 50 ∧ best < a then fbb_aux r (i + 1) (some i) a
    else fbb_aux r (i + 1) idx best

def find_best_below (l : List Int) : Option Nat :=
  fbb_aux l 0 none (-100000)

/-- Loop of `find_best_above` (`read.c`): index of the smallest clock
strictly above 50, starting from `idx = -1, best = 1000000`. -/
def fba_aux : List Int → Nat → Option Nat → Int → Option Nat
  | [], _, idx, _ => idx
  | a :: r, i, idx, best =>
    if 50 < a ∧ a < best then fba_aux r (i + 1) (some i) a
    else fba_aux r (i + 1) idx best

def find_best_above (l : List Int) : Option Nat :=
  fba_aux l 0 none 1000000

/-- Loop of `find_closest` (`read.c`): first index minimising
`abs(mhz[i] - 50)`, starting from `idx = -1, bestd = 1000000`. -/
def fc_aux : List Int → Nat → Option Nat → Int → Option Nat
  | [], _, idx, _ => idx
  | a :: r, i, idx, bestd =>
    if |a - 50| < bestd then fc_aux r (i + 1) (some i) |a - 50|
    else fc_aux r (i + 1) idx bestd

def find_closest (l : List Int) : Option Nat :=
  fc_aux l 0 none 1000000

/-- Per-size 50 MHz derivation of `read_derive_and_print_50` (`read.c`,
lines 245-265), over exact rationals in place of doubles.  `clocks` are the
achieved clocks (MHz) of the filled captures in order, `mbs` the measured
throughputs of one transfer size.  With both a below-50 and an above-50
capture the code interpolates linearly (its `fabs(f_hi - f_lo) < 1e-9`
degenerate guard, which averages, is integer equality here); otherwise it
scales the closest capture by `50 / f_c`. -/
def derive50 (clocks : List Int) (mbs : List ℚ) : ℚ :=
  match find_best_below clocks, find_best_above clocks with
  | some lo, some hi =>
    if ((clocks.getD hi 0 : Int) : ℚ) = ((clocks.getD lo 0 : Int) : ℚ) then
      (mbs.getD lo 0 + mbs.getD hi 0) / 2
    else
      mbs.getD lo 0 + (50 - ((clocks.getD lo 0 : Int) : ℚ)) /
        (((clocks.getD hi 0 : Int) : ℚ) - ((clocks.getD lo 0 : Int) : ℚ)) *
        (mbs.getD hi 0 - mbs.getD lo 0)
  | _, _ =>
    mbs.getD ((find_closest clocks).getD 0) 0 *
      (50 / ((clocks.getD ((find_closest clocks).getD 0) 0 : Int) : ℚ))

theorem fbb_aux_no : ∀ (l : List Int) (i : Nat) (idx : Option Nat) (best : Int),
    (∀ a ∈ l, ¬ a < 50) → fbb_aux l i idx best = idx := by
  intro l
  induction l with
  | nil => intro i idx best _; rfl
  | cons a r ih =>
    intro i idx best h
    rw [fbb_aux, if_neg (by
      intro hcon
      exact (h a (List.mem_cons_self a r)) hcon.1)]
    exact ih (i + 1) idx best (fun b hb => h b (List.mem_cons_of_mem a hb))

theorem fba_aux_no : ∀ (l : List Int) (i : Nat) (idx : Option Nat) (best : Int),
    (∀ a ∈ l, ¬ 50 < a) → fba_aux l i idx best = idx := by
  intro l
  induction l with
  | nil => intro i idx best _; rfl
  | cons a r ih =>
    intro i idx best h
    rw [fba_aux, if_neg (by
      intro hcon
      exact (h a (List.mem_cons_self a r)) hcon.1)]
    exact ih (i + 1) idx best (fun b hb => h b (List.mem_cons_of_mem a hb))

theorem fc_aux_no : ∀ (l : List Int) (i : Nat) (idx : Option Nat) (bestd : Int),
    (∀ a ∈ l, ¬ |a - 50| < bestd) → fc_aux l i idx bestd = idx := by
  intro l
  induction l with
  | nil => intro i idx best _; rfl
  | cons a r ih =>
    intro i idx best h
    rw [fc_aux, if_neg (h a (List.mem_cons_self a r))]
    exact ih (i + 1) idx best (fun b hb => h b (List.mem_cons_of_mem a hb))

theorem fc_aux_min : ∀ (l : List Int) (i : Nat) (idx : Option Nat) (bestd : Int),
    (∃ a ∈ l, |a - 50| < bestd) →
    ∃ k, ∃ hk : k < l.length, fc_aux l i idx bestd = some (i + k) ∧
      |l.get ⟨k, hk⟩ - 50| < bestd ∧
      ∀ j, ∀ hj : j < l.length, |l.get ⟨k, hk⟩ - 50| ≤ |l.get ⟨j, hj⟩ - 50| := by
  intro l
  induction l with
  | nil => intro i idx bestd h; simp at h
  | cons a r ih =>
    intro i idx bestd hex
    by_cases hfirst : |a - 50| < bestd
    · rw [fc_aux, if_pos hfirst]
      by_cases hrest : ∃ b ∈ r, |b - 50| < |a - 50|
      · obtain ⟨k, hk, heq, hlt, hmin⟩ := ih (i + 1) (some i) |a - 50| hrest
        refine ⟨k + 1, by simpa using Nat.succ_lt_succ hk, ?_, ?_, ?_⟩
        · rw [heq]
          congr 1
          omega
        · simpa using lt_trans hlt hfirst
        · intro j hj
          cases j with
          | zero => simpa using (le_of_lt hlt)
          | succ j =>
            simpa using hmin j (by simpa using hj)
      · push_neg at hrest
        rw [fc_aux_no r (i + 1) (some i) |a - 50|
          (fun b hb => not_lt.mpr (hrest b hb))]
        refine ⟨0, by simp, by rw [Nat.add_zero], by simpa using hfirst, ?_⟩
        intro j hj
        cases j with
        | zero => simp
        | succ j =>
          simpa using hrest (r.get ⟨j, by simpa using hj⟩) (r.get_mem j (by simpa using hj))
    · rw [fc_aux, if_neg hfirst]
      have hex' : ∃ b ∈ r, |b - 50| < bestd := by
        rcases hex with ⟨b, hb, hlt⟩
        rcases List.mem_cons.mp hb with h0 | h0
        · exact absurd (h0 ▸ hlt) hfirst
        · exact ⟨b, h0, hlt⟩
      obtain ⟨k, hk, heq, hlt, hmin⟩ := ih (i + 1) idx bestd hex'
      refine ⟨k + 1, by simpa using Nat.succ_lt_succ hk, ?_, ?_, ?_⟩
      · rw [heq]
        congr 1
        omega
      · simpa using hlt
      · intro j hj
        cases j with
        | zero =>
          simp only [List.get_cons_succ, List.get_cons_zero]
          exact le_trans (le_of_lt hlt) (not_lt.mp hfirst)
        | succ j =>
          simpa using hmin j (by simpa using hj)

theorem derive50_two_bracket (a b : Int) (ma mb : ℚ)
    (ha0 : 0 < a) (ha : a ≤ 50) (hb : 50 ≤ b) (hbu : b < 1000000) (hab : a ≠ b) :
    derive50 [a, b] [ma, mb]
      = ma + (50 - (a : ℚ)) / ((b : ℚ) - (a : ℚ)) * (mb - ma) := by
  rcases lt_or_eq_of_le ha with ha50 | ha50
  · have hfbb : find_best_below [a, b] = some 0 := by
      simp only [find_best_below, fbb_aux]
      rw [if_pos ⟨ha50, by omega⟩, if_neg (by rintro ⟨h1, h2⟩; omega)]
    rcases lt_or_eq_of_le hb with hb50 | hb50
    · have hfba : find_best_above [a, b] = some 1 := by
        simp only [find_best_above, fba_aux]
        rw [if_neg (by rintro ⟨h1, h2⟩; omega), if_pos ⟨hb50, by omega⟩]
      simp only [derive50, hfbb, hfba, List.getD]
      rw [if_neg (by
        intro hcon
        have : b = a := by exact_mod_cast hcon
        omega)]
      simp
    · -- b = 50 exactly: the code falls back to the closest capture (b itself),
      -- scaling by 50/50; this equals the interpolation value mb.
      have hb50' : b = 50 := hb50.symm
      subst hb50'
      have hane : a ≠ 50 := by omega
      have hfba : find_best_above [a, 50] = none := by
        simp only [find_best_above, fba_aux]
        rw [if_neg (by rintro ⟨h1, h2⟩; omega), if_neg (by rintro ⟨h1, h2⟩; omega)]
      have habs : |a - 50| = 50 - a := by
        rw [abs_of_nonpos (by omega)]
        ring
      have hfc : find_closest [a, 50] = some 1 := by
        simp only [find_closest, fc_aux]
        rw [if_pos (by rw [habs]; omega)]
        rw [if_pos (by
          have h0 : |(50 : Int) - 50| = 0 := by norm_num
          rw [h0, habs]
          omega)]
      have hnz : (50 : ℚ) - (a : ℚ) ≠ 0 := by
        have : (a : ℚ) < 50 := by exact_mod_cast ha50
        intro hcon
        have : (a : ℚ) = 50 := by linarith
        linarith
      simp only [derive50, hfbb, hfba, hfc, Option.getD_some]
      have hL1 : [ma, mb].getD 1 0 = mb := rfl
      have hL2 : ([a, (50 : Int)].getD 1 0) = 50 := rfl
      rw [hL1, hL2]
      push_cast
      rw [div_self hnz]
      norm_num
  · -- a = 50 exactly: fall back to the closest capture (a itself); the
    -- scaled value equals the interpolation value ma.
    have ha50' : a = 50 := ha50
    subst ha50'
    have hb50 : 50 < b := by omega
    have hfbb : find_best_below [50, b] = none := by
      simp only [find_best_below, fbb_aux]
      rw [if_neg (by rintro ⟨h1, h2⟩; omega), if_neg (by rintro ⟨h1, h2⟩; omega)]
    have hfc : find_closest [50, b] = some 0 := by
      simp only [find_closest, fc_aux]
      rw [if_pos (by norm_num)]
      rw [if_neg (by
        have h0 : |(50 : Int) - 50| = 0 := by norm_num
        rw [h0]
        simp [abs_nonneg])]
    rcases hm : find_best_above [50, b] with _ | hi
    · simp only [derive50, hfbb, hm, hfc, List.getD]
      norm_num
    · simp only [derive50, hfbb, hm, hfc, List.getD]
      norm_num

theorem derive50_fallback (clocks : List Int) (mbs : List ℚ)
    (hne : clocks ≠ [])
    (hbound : ∀ f ∈ clocks, 0 < f ∧ f < 1000000)
    (hside : (∀ f ∈ clocks, f < 50) ∨ (∀ f ∈ clocks, 50 < f)) :
    ∃ c, c < clocks.length ∧
      (∀ j, j < clocks.length → |clocks.getD c 0 - 50| ≤ |clocks.getD j 0 - 50|) ∧
      derive50 clocks mbs = mbs.getD c 0 * (50 / ((clocks.getD c 0 : Int) : ℚ)) := by
  have hex : ∃ f ∈ clocks, |f - 50| < 1000000 := by
    cases clocks with
    | nil => exact absurd rfl hne
    | cons c0 rest =>
      refine ⟨c0, List.mem_cons_self _ _, ?_⟩
      have := hbound c0 (List.mem_cons_self _ _)
      rw [abs_sub_lt_iff]
      omega
  obtain ⟨k, hk, heq, _, hmin⟩ := fc_aux_min clocks 0 none 1000000 hex
  have hfc : find_closest clocks = some k := by
    rw [find_closest, heq]
    congr 1
    omega
  have hgetD : ∀ (j : Nat) (hj : j < clocks.length),
      clocks.getD j 0 = clocks.get ⟨j, hj⟩ := by
    intro j hj
    rw [List.getD_eq_getElem _ _ hj]
    simp [List.get_eq_getElem]
  have hmain : derive50 clocks mbs
      = mbs.getD ((find_closest clocks).getD 0) 0 *
        (50 / ((clocks.getD ((find_closest clocks).getD 0) 0 : Int) : ℚ)) := by
    rcases hside with hlow | hhigh
    · have hfba : find_best_above clocks = none :=
        fba_aux_no clocks 0 none 1000000
          (fun f hf => not_lt.mpr (le_of_lt (hlow f hf)))
      rcases hm : find_best_below clocks with _ | lo
      · simp only [derive50, hm, hfba]
      · simp only [derive50, hm, hfba]
    · have hfbb : find_best_below clocks = none :=
        fbb_aux_no clocks 0 none (-100000)
          (fun f hf => not_lt.mpr (le_of_lt (hhigh f hf)))
      rcases hm : find_best_above clocks with _ | hi
      · simp only [derive50, hfbb, hm]
      · simp only [derive50, hfbb, hm]
  refine ⟨k, hk, ?_, ?_⟩
  · intro j hj
    rw [hgetD k hk, hgetD j hj]
    exact hmin j hj
  · rw [hmain, hfc]
    rfl

/-- C9: per transfer size, `read_derive_and_print_50` (i) given exactly two
captures whose achieved clocks bracket 50 MHz (one at most 50, one at least
50, achieved clocks positive and below the 1000000 sentinel, and distinct),
returns the linear interpolation of throughput by clock frequency — at a
boundary clock of exactly 50 the code's closest-capture fallback returns the
same value as the interpolation; (ii) for captures at 32 MHz and 63 MHz with
distinct measured throughputs, the result is strictly between the two
measurements; (iii) when no bracketing pair exists (all achieved clocks on
one side of 50), it returns the throughput of a capture whose clock
distance to 50 is minimal, scaled proportionally by 50 divided by that
achieved clock. -/
theorem C9_derive_at_reference_clock :
    (∀ (a b : Int) (ma mb : ℚ), 0 < a → a ≤ 50 → 50 ≤ b → b < 1000000 → a ≠ b →
      derive50 [a, b] [ma, mb]
        = ma + (50 - (a : ℚ)) / ((b : ℚ) - (a : ℚ)) * (mb - ma)) ∧
    (∀ ma mb : ℚ, ma ≠ mb →
      min ma mb < derive50 [32, 63] [ma, mb] ∧
        derive50 [32, 63] [ma, mb] < max ma mb) ∧
    (∀ (clocks : List Int) (mbs : List ℚ), clocks ≠ [] →
      (∀ f ∈ clocks, 0 < f ∧ f < 1000000) →
      ((∀ f ∈ clocks, f < 50) ∨ (∀ f ∈ clocks, 50 < f)) →
      ∃ c, c < clocks.length ∧
        (∀ j, j < clocks.length → |clocks.getD c 0 - 50| ≤ |clocks.getD j 0 - 50|) ∧
        derive50 clocks mbs
          = mbs.getD c 0 * (50 / ((clocks.getD c 0 : Int) : ℚ))) := by
  refine ⟨fun a b ma mb h1 h2 h3 h4 h5 => derive50_two_bracket a b ma mb h1 h2 h3 h4 h5,
    fun ma mb hne => ?_,
    fun clocks mbs h1 h2 h3 => derive50_fallback clocks mbs h1 h2 h3⟩
  have hval : derive50 [32, 63] [ma, mb] = ma + 18 / 31 * (mb - ma) := by
    rw [derive50_two_bracket 32 63 ma mb (by norm_num) (by norm_num) (by norm_num)
      (by norm_num) (by norm_num)]
    norm_num
  rw [hval]
  rcases lt_or_gt_of_ne hne with h | h
  · rw [min_eq_left (le_of_lt h), max_eq_right (le_of_lt h)]
    constructor <;> nlinarith
  · rw [min_eq_right (le_of_lt h), max_eq_left (le_of_lt h)]
    constructor <;> nlinarith

/-- C9, witness: interpolation at 32/63 MHz with throughputs 1 and 2;
strict betweenness; and the out-of-bracket pair 63/80 MHz falling back to
closest-capture proportional scaling. -/
theorem C9_witness :
    derive50 [32, 63] [1, 2] = 1 + (50 - ((32 : Int) : ℚ)) /
        (((63 : Int) : ℚ) - ((32 : Int) : ℚ)) * (2 - 1) ∧
    (min 1 2 < derive50 [32, 63] [(1 : ℚ), 2] ∧
      derive50 [32, 63] [(1 : ℚ), 2] < max 1 2) ∧
    ∃ c, c < [(63 : Int), 80].length ∧
      (∀ j, j < [(63 : Int), 80].length →
        |[(63 : Int), 80].getD c 0 - 50| ≤ |[(63 : Int), 80].getD j 0 - 50|) ∧
      derive50 [63, 80] [3, 4]
        = [(3 : ℚ), 4].getD c 0 * (50 / (([(63 : Int), 80].getD c 0 : Int) : ℚ)) :=
  ⟨C9_derive_at_reference_clock.1 32 63 1 2 (by norm_num) (by norm_num) (by norm_num)
      (by norm_num) (by norm_num),
   C9_derive_at_reference_clock.2.1 1 2 (by norm_num),
   C9_derive_at_reference_clock.2.2 [63, 80] [3, 4] (by simp)
     (by decide) (Or.inr (by decide))⟩
